import Mathlib

/-!
Verification development for the swagger-enforcer validation and templating
engine.  The JavaScript sources embedded here are `bin-2/validate.js` (the
recursive schema Validator) and `bin/apply-template.js` (the Template/Defaults
Materializer, re-exported through `index.js`).  JavaScript values are modelled
by the inductive type `JVal`, schema nodes by `JSchema`, and the validation
context `v` (options, error accumulator and the external helper modules
`is.js`, `rx.js`, the JS `Date`/`RegExp` semantics and the version-specific
discriminator strategy, none of which are part of the translated sources) by
the structure `Ctx`.  Errors accumulated through `v.error(prefix, message)`
are threaded explicitly as a list; JavaScript runtime exceptions (`TypeError`
on property access of `null`/`undefined`, calling a non-function, and stack
exhaustion on unbounded recursion) are modelled with `Except JsErr`.
-/

/-- JavaScript runtime values as they appear in schemas and validated data.
Numbers are modelled as rationals (JS floats minus NaN/Infinity, which the
translated code paths never produce). -/
inductive JVal : Type where
  | null : JVal
  | undefJS : JVal
  | bool : Bool → JVal
  | num : ℚ → JVal
  | str : String → JVal
  | arr : List JVal → JVal
  | obj : List (String × JVal) → JVal

/-- JavaScript runtime exceptions that the translated code can raise.
`stackOverflow` stands for the `RangeError` thrown by the JS engine when
recursion does not terminate; it is the out-of-fuel marker of the embedding. -/
inductive JsErr : Type where
  | typeError (msg : String) : JsErr
  | stackOverflow : JsErr
deriving DecidableEq

/-- Structured rendering of the error messages built by `validate.js`.
Each constructor corresponds to one `v.error(prefix, message)` call site and
carries the data interpolated into the message string.  `noneOfAnyOf` carries
the per-branch error lists joined into the single anyOf failure message. -/
inductive ErrMsg : Type where
  | expectedArray (value : JVal)
  | arrayMaxItems (maxItems : ℕ) (length : ℕ)
  | arrayMinItems (minItems : ℕ) (length : ℕ)
  | arrayNotUnique (index : ℕ) (item : JVal)
  | expectedBoolean (value : JVal)
  | expectedString (value : JVal)
  | expectedBinary (value : JVal)
  | expectedBase64 (value : JVal)
  | expectedDate (value : JVal)
  | expectedDateTime (value : JVal)
  | expectedInteger (value : JVal)
  | expectedNumber (value : JVal)
  | expectedObject (value : JVal)
  | strMaxLength (bound : ℕ) (length : ℕ) (value : JVal)
  | strMinLength (bound : ℕ) (length : ℕ) (value : JVal)
  | strPattern (pat : String) (value : JVal)
  | enumMismatch (value : JVal)
  | requiredMissing (names : List String)
  | propertyNotAllowed
  | aboveMax (descriptor : String) (exclusive : Bool) (value : JVal)
  | belowMin (descriptor : String) (exclusive : Bool) (value : JVal)
  | multipleOfErr (divisor : ℚ) (value : JVal)
  | timeInvalid (timePart : String)
  | dateNotExist (datePart : String)
  | undefinedDiscriminator (key : String)
  | shouldNotPass
  | noneOfAnyOf (failing : List (ℕ × List (String × ErrMsg)))

/-- An error record: the slash-delimited prefix path plus the message. -/
abbrev ErrRec : Type := String × ErrMsg

/-- Field lookup on a JS object field list (first binding wins, as in JS). -/
def jsFieldGet : List (String × JVal) → String → Option JVal
  | [], _ => none
  | (k, x) :: rest, key => if k = key then some x else jsFieldGet rest key

/-- Property read `value[key]`: `undefined` when the key is absent or the
value is not an object. -/
def jsGet (value : JVal) (key : String) : JVal :=
  match value with
  | .obj fields => (jsFieldGet fields key).getD .undefJS
  | _ => .undefJS

/-- Translation of `value.hasOwnProperty(key)`.  Throws a `TypeError` for
`null` and `undefined`; primitives autobox and report `false`; arrays own
their index keys and `length`. -/
def jsHasOwn (value : JVal) (key : String) : Except JsErr Bool :=
  match value with
  | .null => .error (.typeError "Cannot read property hasOwnProperty of null")
  | .undefJS => .error (.typeError "Cannot read property hasOwnProperty of undefined")
  | .obj fields => .ok ((jsFieldGet fields key).isSome)
  | .arr xs => .ok (key == "length" || (List.range xs.length).any (fun i => toString i == key))
  | _ => .ok false

/-- Translation of the expression `value.length`: throws on `null` and
`undefined`, is the length for strings and arrays, a field read for objects
and `undefined` for other primitives. -/
def jsLength (value : JVal) : Except JsErr JVal :=
  match value with
  | .null => .error (.typeError "Cannot read property length of null")
  | .undefJS => .error (.typeError "Cannot read property length of undefined")
  | .str s => .ok (.num s.length)
  | .arr xs => .ok (.num xs.length)
  | .obj fields => .ok ((jsFieldGet fields "length").getD .undefJS)
  | _ => .ok .undefJS

/-- JS truthiness of a value. -/
def jsTruthy : JVal → Bool
  | .null => false
  | .undefJS => false
  | .bool b => b
  | .num q => q ≠ 0
  | .str s => s ≠ ""
  | .arr _ => true
  | .obj _ => true

/-- JS truthiness of an optional string-valued schema attribute. -/
def truthyOptStr : Option String → Bool
  | some s => s ≠ ""
  | none => false

/-- Coercion of a value to a property key string, as in `definitions[x]`.
Object and array keys (rare, never exercised by the repository) are
collapsed to their JSON-ish tags. -/
def jsKeyOf : JVal → String
  | .str s => s
  | .num q => toString q
  | .bool b => toString b
  | .null => "null"
  | .undefJS => "undefined"
  | .arr _ => ""
  | .obj _ => "[object Object]"

/-- Modelled from the spec: `util.same` of `bin-2/util.js` (and `bin/same.js`),
absent from the sources.  Deep structural equality that treats `NaN == NaN`
(no `NaN` exists in the rational model), compares arrays element-by-element
and objects key-by-key; object fields are compared in declaration order. -/
def same : JVal → JVal → Bool
  | .null, .null => true
  | .undefJS, .undefJS => true
  | .bool a, .bool b => a == b
  | .num a, .num b => a == b
  | .str a, .str b => a == b
  | .arr [], .arr [] => true
  | .arr (x :: xs), .arr (y :: ys) => same x y && same (.arr xs) (.arr ys)
  | .obj [], .obj [] => true
  | .obj ((k1, x) :: xs), .obj ((k2, y) :: ys) =>
      k1 == k2 && same x y && same (.obj xs) (.obj ys)
  | _, _ => false

/-- Non-recursive attributes of a schema node. -/
structure SBase : Type where
  type : Option String := none
  format : Option String := none
  discriminator : Option String := none
  xVariable : Option String := none
  xTemplate : Option String := none
  enumVals : Option (List JVal) := none
  maximum : Option JVal := none
  minimum : Option JVal := none
  exclusiveMaximum : Bool := false
  exclusiveMinimum : Bool := false
  multipleOf : Option ℚ := none
  maxLength : Option ℕ := none
  minLength : Option ℕ := none
  pattern : Option String := none
  maxItems : Option ℕ := none
  minItems : Option ℕ := none
  uniqueItems : Bool := false
  maxProperties : Option ℕ := none
  minProperties : Option ℕ := none
  requiredProps : Option (List String) := none
  dflt : Option JVal := none

mutual
/-- A schema node: the scalar keywords plus the recursive structure
(`properties`, `additionalProperties`, `items`, the combinators and `not`). -/
inductive JSchema : Type where
  | node (base : SBase)
         (properties : List (String × JSchema))
         (addl : AddlProps)
         (items : Option JSchema)
         (allOf : Option (List JSchema))
         (anyOf : Option (List JSchema))
         (oneOf : Option (List JSchema))
         (notSchema : Option JSchema)

/-- The `additionalProperties` keyword: absent, a boolean, or a schema. -/
inductive AddlProps : Type where
  | absent
  | abool (b : Bool)
  | aschema (s : JSchema)
end

def JSchema.base : JSchema → SBase
  | .node b _ _ _ _ _ _ _ => b

def JSchema.properties : JSchema → List (String × JSchema)
  | .node _ p _ _ _ _ _ _ => p

def JSchema.addl : JSchema → AddlProps
  | .node _ _ a _ _ _ _ _ => a

def JSchema.items : JSchema → Option JSchema
  | .node _ _ _ i _ _ _ _ => i

def JSchema.allOf : JSchema → Option (List JSchema)
  | .node _ _ _ _ a _ _ _ => a

def JSchema.anyOf : JSchema → Option (List JSchema)
  | .node _ _ _ _ _ a _ _ => a

def JSchema.oneOf : JSchema → Option (List JSchema)
  | .node _ _ _ _ _ _ o _ => o

def JSchema.notSchema : JSchema → Option JSchema
  | .node _ _ _ _ _ _ _ n => n

/-- A schema node with only scalar keywords. -/
def JSchema.simple (b : SBase) : JSchema :=
  .node b [] .absent none none none none none

/-- Replace the `items` sub-schema of a node. -/
def JSchema.setItems : JSchema → Option JSchema → JSchema
  | .node b p a _ al an o n, i => .node b p a i al an o n

/-- Replace the `properties` map of a node. -/
def JSchema.setProps : JSchema → List (String × JSchema) → JSchema
  | .node b _ a i al an o n, p => .node b p a i al an o n

/-- Replace the `additionalProperties` keyword of a node. -/
def JSchema.setAddl : JSchema → AddlProps → JSchema
  | .node b p _ i al an o n, a => .node b p a i al an o n

/-- The per-rule boolean toggles plus the maximum recursion depth, mirroring
the `validate` section of the defaults in `bin-2/versions/...` and the
`v.options` reads in `bin-2/validate.js`. -/
structure VOptions : Type where
  anyOf : Bool := true
  oneOf : Bool := true
  allOf : Bool := true
  notO : Bool := true
  array : Bool := true
  boolean : Bool := true
  integer : Bool := true
  number : Bool := true
  object : Bool := true
  string : Bool := true
  binary : Bool := true
  byte : Bool := true
  date : Bool := true
  dateTime : Bool := true
  dateExists : Bool := true
  timeExists : Bool := true
  items : Bool := true
  maxItems : Bool := true
  minItems : Bool := true
  uniqueItems : Bool := true
  maxLength : Bool := true
  minLength : Bool := true
  pattern : Bool := true
  maxProperties : Bool := true
  minProperties : Bool := true
  required : Bool := true
  properties : Bool := true
  additionalProperties : Bool := true
  maximum : Bool := true
  minimum : Bool := true
  multipleOf : Bool := true
  enum : Bool := true
  discriminator : Bool := true
  depth : ℕ := 20

/-- The validation context `v`.  The option flags are translated directly;
the function fields model the external modules the Validator requires but
that are not part of the sources.  Modelled from the spec: `isBinary`,
`isByte`, `isDate`, `isDateTime` stand for `is.js` (format shape checks),
`regexTest` for `new RegExp(pattern).test(value)`, `dateTimeParts` for the
`rx.dateTime.exec` capture groups (year, month, day, hour, minute, second;
`none` when the expression does not match), `jsDateUTC` for
`new Date(value)`'s UTC year/month/day (`none` for an invalid date),
`dateEpoch` for the instant a date string denotes (`none` when invalid), and
`getDiscriminatorSchema` / `getDiscriminatorKey` for the version-specific
discriminator strategy `v.version` (subtype lookup in the definitions map).
The accumulating `v.errors` array and the appending `v.error` function are
modelled by explicit `List ErrRec` state threading. -/
structure Ctx : Type where
  options : VOptions
  isBinary : String → Bool := fun _ => false
  isByte : String → Bool := fun _ => false
  isDate : String → Bool := fun _ => false
  isDateTime : String → Bool := fun _ => false
  regexTest : String → String → Bool := fun _ _ => true
  dateTimeParts : String → Option (ℤ × ℤ × ℤ × ℤ × ℤ × ℤ) := fun _ => none
  jsDateUTC : String → Option (ℤ × ℤ × ℤ) := fun _ => none
  dateEpoch : String → Option ℚ := fun _ => none
  getDiscriminatorSchema : JSchema → JVal → Option JSchema := fun _ _ => none
  getDiscriminatorKey : JSchema → JVal → String := fun _ _ => ""

/-- Modelled from the spec: the Type Resolver (`util.schemaType` of
`bin-2/util.js` and `bin/schema-type.js`, both absent from the sources) —
"given a schema node, determines its effective primitive kind
(boolean|integer|number|string|array|object) accounting for declared `type`,
`enum`, and combinators".  The declared `type` wins; otherwise the presence
of object keywords, then `items`, then the kind of the first enum member. -/
def typeofName : JVal → Option String
  | .bool _ => some "boolean"
  | .num q => some (if q.den = 1 then "integer" else "number")
  | .str _ => some "string"
  | .arr _ => some "array"
  | .obj _ => some "object"
  | _ => none

/-- Modelled from the spec: see `typeofName`; the shared type-resolution
entry point used by both the Validator and the Materializer. -/
def schemaType (s : JSchema) : Option String :=
  match s.base.type with
  | some t => some t
  | none =>
      if ¬s.properties.isEmpty ∨ ¬(s.addl matches .absent) then
        some "object"
      else if s.items.isSome then some "array"
      else match s.base.enumVals with
           | some (x :: _) => typeofName x
           | _ => none

/-- Translation of `nestedPrefix`: two more spaces than the current prefix
path's leading-space indentation. -/
def nestedIndent (pfx : String) : String :=
  String.mk (List.replicate ((pfx.data.takeWhile (· = ' ')).length + 2) ' ')

/-- Translation of `_enum`: enum membership using deep equality `same`. -/
def enumCheck (v : Ctx) (pfx : String) (s : JSchema) (value : JVal)
    (errs : List ErrRec) : List ErrRec :=
  match s.base.enumVals with
  | some list =>
      if v.options.enum then
        if list.any (fun e => same value e) then errs
        else errs ++ [(pfx, .enumMismatch value)]
      else errs
  | none => errs

/-- Translation of `maxMin`, generic over the compared quantity exactly as
the JS function is called with numbers, `Date` instants and property counts.
`optMax`/`optMin` are `v.options[maxProperty]`/`v.options[minProperty]`,
`hasMax`/`hasMin` the `schema.hasOwnProperty` tests, and `gtF`/`geF`/`ltF`/
`leF` the `>`/`>=`/`<`/`<=` comparisons of the call site's value type. -/
def maxMin {α : Type} (pfx : String) (descriptor : String)
    (optMax optMin : Bool) (exclusives exMax exMin : Bool)
    (hasMax hasMin : Bool) (gtF geF ltF leF : α → α → Bool)
    (value maxVal minVal : α) (valueJ : JVal)
    (errs : List ErrRec) : List ErrRec :=
  let errs :=
    if optMax ∧ hasMax then
      if exclusives ∧ exMax ∧ geF value maxVal then
        errs ++ [(pfx, .aboveMax descriptor true valueJ)]
      else if gtF value maxVal then
        errs ++ [(pfx, .aboveMax descriptor false valueJ)]
      else errs
    else errs
  if optMin ∧ hasMin then
    if exclusives ∧ exMin ∧ leF value minVal then
      errs ++ [(pfx, .belowMin descriptor true valueJ)]
    else if ltF value minVal then
      errs ++ [(pfx, .belowMin descriptor false valueJ)]
    else errs
  else errs

/-- JS `%` on numbers: remainder with truncation toward zero.  The divisor-0
case (JS `NaN`) is unreachable behind the truthiness guard of `numerical`. -/
def jsMod (a b : ℚ) : ℚ :=
  if b = 0 then 0
  else a - b * ((a / b).floor + (if (a / b) < 0 ∧ ¬((a / b).den = 1) then 1 else 0))

/-- Extraction of a numeric bound from the raw schema attribute: non-numeric
attribute values coerce to `NaN` in JS, whose comparisons are all false —
modelled by `none`. -/
def numOfJ : Option JVal → Option ℚ
  | some (.num q) => some q
  | _ => none

/-- Comparators on `Option ℚ` with `none` behaving like `NaN` (every
comparison false), matching JS relational semantics on numbers. -/
def optGt : Option ℚ → Option ℚ → Bool
  | some a, some b => a > b
  | _, _ => false

def optGe : Option ℚ → Option ℚ → Bool
  | some a, some b => a ≥ b
  | _, _ => false

def optLt : Option ℚ → Option ℚ → Bool
  | some a, some b => a < b
  | _, _ => false

def optLe : Option ℚ → Option ℚ → Bool
  | some a, some b => a ≤ b
  | _, _ => false

/-- The `multipleOf` line of `numerical`: the check runs behind the
truthiness guard `schema.multipleOf &&`, so an absent or zero divisor skips
it and the modulo is never taken with divisor zero. -/
def multStep (pfx : String) (value : ℚ) (mo : Option ℚ)
    (errs : List ErrRec) : List ErrRec :=
  match mo with
  | some m => if m ≠ 0 ∧ jsMod value m ≠ 0
              then errs ++ [(pfx, .multipleOfErr m (.num value))] else errs
  | none => errs

/-- Translation of `numerical`: maximum/minimum with exclusivity, the
`multipleOf` check (see `multStep`), then enum membership. -/
def numerical (descriptor : String) (v : Ctx) (pfx : String) (s : JSchema)
    (value : ℚ) (errs : List ErrRec) : List ErrRec :=
  let errs := maxMin pfx descriptor v.options.maximum v.options.minimum
      true s.base.exclusiveMaximum s.base.exclusiveMinimum
      s.base.maximum.isSome s.base.minimum.isSome optGt optGe optLt optLe
      (some value) (numOfJ s.base.maximum) (numOfJ s.base.minimum)
      (.num value) errs
  let errs := multStep pfx value s.base.multipleOf errs
  enumCheck v pfx s (.num value) errs

/-- The result type shared by the validator functions: either a JS runtime
exception or the updated error-record list. -/
abbrev VRes : Type := Except JsErr (List ErrRec)

/-- The shape of a recursive call back into `validate` (prefix, depth,
schema, value, accumulated errors).  The mutually recursive JS functions are
translated as definitions parameterised by this continuation, with the knot
tied by the fuel-indexed `validate` below. -/
abbrev Recur : Type := String → ℕ → JSchema → JVal → List ErrRec → VRes

/-- Translation of `validate.string`: note that `const length = value.length`
is evaluated before the `typeof` test, so a `null` or `undefined` value
raises a `TypeError` instead of producing an error record. -/
def validateString (v : Ctx) (pfx : String) (s : JSchema) (value : JVal)
    (errs : List ErrRec) : VRes := do
  if ¬v.options.string then return errs
  let _ ← jsLength value
  match value with
  | .str str =>
      let length := str.length
      let errs := if v.options.maxLength ∧ s.base.maxLength.isSome ∧
                     (s.base.maxLength.getD 0) < length then
          errs ++ [(pfx, .strMaxLength (s.base.maxLength.getD 0) length value)]
        else errs
      let errs := if v.options.minLength ∧ s.base.minLength.isSome ∧
                     length < (s.base.minLength.getD 0) then
          errs ++ [(pfx, .strMinLength (s.base.minLength.getD 0) length value)]
        else errs
      let errs :=
        match s.base.pattern with
        | some pat => if v.options.pattern ∧ ¬v.regexTest pat str then
              errs ++ [(pfx, .strPattern pat value)]
            else errs
        | none => errs
      return enumCheck v pfx s value errs
  | _ => return errs ++ [(pfx, .expectedString value)]

/-- Translation of `validate.boolean`. -/
def validateBoolean (v : Ctx) (pfx : String) (s : JSchema) (value : JVal)
    (errs : List ErrRec) : VRes := do
  if ¬v.options.boolean then return errs
  match value with
  | .bool _ => return enumCheck v pfx s value errs
  | _ => return errs ++ [(pfx, .expectedBoolean value)]

/-- Translation of `validate.integer`: `isNaN(value) || Math.round(value) !==
value || typeof value !== 'number'` rejects everything but an integral
number. -/
def validateInteger (v : Ctx) (pfx : String) (s : JSchema) (value : JVal)
    (errs : List ErrRec) : VRes := do
  if ¬v.options.integer then return errs
  match value with
  | .num q =>
      if q.den = 1 then return numerical "integer" v pfx s q errs
      else return errs ++ [(pfx, .expectedInteger value)]
  | _ => return errs ++ [(pfx, .expectedInteger value)]

/-- Translation of `validate.number`. -/
def validateNumber (v : Ctx) (pfx : String) (s : JSchema) (value : JVal)
    (errs : List ErrRec) : VRes := do
  if ¬v.options.number then return errs
  match value with
  | .num q => return numerical "number" v pfx s q errs
  | _ => return errs ++ [(pfx, .expectedNumber value)]

/-- Translation of the `date` helper: time-of-day bounds, calendar existence
(comparing the matched components with the `Date`-normalised UTC fields) and
`maximum`/`minimum` compared as instants.  The capture-group access
`match[1]` raises a `TypeError` when the expression did not match. -/
def dateHelper (descriptor : String) (v : Ctx) (pfx : String) (s : JSchema)
    (value : String) (errs : List ErrRec) : VRes := do
  let suffix := if descriptor = "date-time" then "" else "T00:00:00.000Z"
  match v.dateTimeParts (value ++ suffix) with
  | none => .error (.typeError "Cannot read property 1 of null")
  | some (year, month, day, hour, minute, second) =>
      let errs := if v.options.timeExists ∧ (hour ≥ 24 ∨ minute ≥ 60 ∨ second ≥ 60) then
          errs ++ [(pfx, .timeInvalid (value.drop 11))]
        else errs
      let errs :=
        let bad : Bool := match v.jsDateUTC value with
          | some (y2, m2, d2) => year ≠ y2 ∨ month - 1 ≠ m2 ∨ day ≠ d2
          | none => true
        if v.options.dateExists ∧ bad then
          errs ++ [(pfx, .dateNotExist (value.take 10))]
        else errs
      let epochOf : Option JVal → Option ℚ := fun j =>
        match j with
        | some (.str sv) => v.dateEpoch sv
        | _ => none
      return maxMin pfx descriptor v.options.maximum v.options.minimum
        false false false s.base.maximum.isSome s.base.minimum.isSome
        optGt optGe optLt optLe (v.dateEpoch value)
        (epochOf s.base.maximum) (epochOf s.base.minimum) (.str value) errs

/-- Translation of `validate.binary`. -/
def validateBinary (v : Ctx) (pfx : String) (s : JSchema) (value : JVal)
    (errs : List ErrRec) : VRes := do
  if ¬v.options.binary then return errs
  match value with
  | .str str =>
      let errs := if ¬v.isBinary str then errs ++ [(pfx, .expectedBinary value)] else errs
      validateString v pfx s value errs
  | _ => return errs ++ [(pfx, .expectedString value)]

/-- Translation of `validate.byte`. -/
def validateByte (v : Ctx) (pfx : String) (s : JSchema) (value : JVal)
    (errs : List ErrRec) : VRes := do
  if ¬v.options.byte then return errs
  match value with
  | .str str =>
      let errs := if ¬v.isByte str then errs ++ [(pfx, .expectedBase64 value)] else errs
      validateString v pfx s value errs
  | _ => return errs ++ [(pfx, .expectedString value)]

/-- Translation of `validate.date`. -/
def validateDate (v : Ctx) (pfx : String) (s : JSchema) (value : JVal)
    (errs : List ErrRec) : VRes := do
  if ¬v.options.date then return errs
  match value with
  | .str str =>
      if v.isDate str then do
        let errs ← dateHelper "date" v pfx s str errs
        validateString v pfx s value errs
      else return errs ++ [(pfx, .expectedDate value)]
  | _ => return errs ++ [(pfx, .expectedDate value)]

/-- Translation of `validate.dateTime` (also exported as
`validate['date-time']`). -/
def validateDateTime (v : Ctx) (pfx : String) (s : JSchema) (value : JVal)
    (errs : List ErrRec) : VRes := do
  if ¬v.options.dateTime then return errs
  match value with
  | .str str =>
      if v.isDateTime str then do
        let errs ← dateHelper "date-time" v pfx s str errs
        validateString v pfx s value errs
      else return errs ++ [(pfx, .expectedDateTime value)]
  | _ => return errs ++ [(pfx, .expectedDateTime value)]

/-- Translation of `discriminate` for tree-shaped schemas: flattens enabled
`allOf` members and follows the discriminator strategy, accumulating the
effective schema list and reporting an undefined subtype as an error record.
The JS original prevents unbounded revisits with a `Map` keyed on object
identity; tree-shaped schemas have no aliasing, so the identity map is
modelled by the fuel bound (exhaustion stops expanding, exactly as the
visited-map short-circuit does on a revisit).  The arena-based
`discriminateA` below models the identity map itself. -/
def discriminate (v : Ctx) : ℕ → String → JSchema → JVal →
    List JSchema × List ErrRec → List JSchema × List ErrRec
  | 0, _, _, _, st => st
  | fuel + 1, pfx, s, value, (acc, errs) =>
      if v.options.allOf ∧ s.allOf.isSome then
        (s.allOf.getD []).foldl
          (fun st m => discriminate v fuel pfx m value st) (acc, errs)
      else
        let acc := acc ++ [s]
        if v.options.discriminator ∧ truthyOptStr s.base.discriminator then
          match v.getDiscriminatorSchema s value with
          | some d => discriminate v fuel pfx d value (acc, errs)
          | none =>
              (acc, errs ++ [(pfx, .undefinedDiscriminator (v.getDiscriminatorKey s value))])
        else (acc, errs)

/-- Lookup in a schema `properties` map (`properties.hasOwnProperty(key)` /
`properties[key]`). -/
def lookupProp : List (String × JSchema) → String → Option JSchema
  | [], _ => none
  | (k, ps) :: rest, key => if k = key then some ps else lookupProp rest key

/-- Lookup in the shared schema-definitions map. -/
def lookupDefn : List (String × JSchema) → String → Option JSchema
  | [], _ => none
  | (k, ds) :: rest, key => if k = key then some ds else lookupDefn rest key

/-- Translation of the `uniqueItems` scan of `validate.array`: a pairwise
deep-equality pass that reports each element already seen and collects the
unseen ones in `singles`. -/
def uniqueScan (pfx : String) : List JVal → ℕ → List JVal → List ErrRec →
    List ErrRec
  | [], _, _, errs => errs
  | x :: rest, idx, singles, errs =>
      if singles.any (fun y => same x y) then
        uniqueScan pfx rest (idx + 1) singles (errs ++ [(pfx, .arrayNotUnique idx x)])
      else
        uniqueScan pfx rest (idx + 1) (singles ++ [x]) errs

/-- The per-element descent of `validate.array` into `schema.items`. -/
def itemsFold (recur : Recur) (pfx : String) (depth1 : ℕ) (its : JSchema) :
    List JVal → ℕ → List ErrRec → VRes
  | [], _, errs => .ok errs
  | x :: rest, idx, errs => do
      let errs ← recur (pfx ++ "/" ++ toString idx) depth1 its x errs
      itemsFold recur pfx depth1 its rest (idx + 1) errs

/-- Translation of `validate.array`: array check, length bounds, uniqueness
scan, the `items` descent guarded by `v.options.depth > depth`, then enum
membership. -/
def validateArray (recur : Recur) (v : Ctx) (pfx : String) (depth : ℕ)
    (s : JSchema) (value : JVal) (errs : List ErrRec) : VRes := do
  if ¬v.options.array then return errs
  match value with
  | .arr xs =>
      let length := xs.length
      let errs := if v.options.maxItems ∧ s.base.maxItems.isSome ∧
                     (s.base.maxItems.getD 0) < length then
          errs ++ [(pfx, .arrayMaxItems (s.base.maxItems.getD 0) length)]
        else errs
      let errs := if v.options.minItems ∧ s.base.minItems.isSome ∧
                     length < (s.base.minItems.getD 0) then
          errs ++ [(pfx, .arrayMinItems (s.base.minItems.getD 0) length)]
        else errs
      let errs := if v.options.uniqueItems ∧ s.base.uniqueItems then
          uniqueScan pfx xs 0 [] errs
        else errs
      let errs ←
        match s.items with
        | some its =>
            if v.options.items ∧ depth < v.options.depth then
              itemsFold recur pfx (depth + 1) its xs 0 errs
            else pure errs
        | none => pure errs
      return enumCheck v pfx s value errs
  | _ => return errs ++ [(pfx, .expectedArray value)]

/-- The keyed collection a JS value presents to `Object.keys`/`value[key]`
iteration: object fields, or index keys for an array (`typeof [] ===
'object'`); `none` for `null` and non-objects. -/
def fieldsOf : JVal → Option (List (String × JVal))
  | .obj fields => some fields
  | .arr xs => some (xs.enum.map (fun p => (toString p.1, p.2)))
  | _ => none

/-- The body of the per-key loop of `validate.object` for one effective
schema: removes the key from the pending `required` list, then — while the
depth budget allows — validates a declared property against its schema or
applies the `additionalProperties` policy. -/
def objKeyStep (recur : Recur) (v : Ctx) (pfx : String) (depth : ℕ)
    (properties : List (String × JSchema)) (addl : AddlProps)
    (key : String) (val : JVal) (st : List ErrRec × List String) :
    Except JsErr (List ErrRec × List String) :=
  let required := st.2.erase key
  if depth < v.options.depth then
    match lookupProp properties key with
    | some ps =>
        if v.options.properties then
          (recur (pfx ++ "/" ++ key) (depth + 1) ps val st.1).bind
            (fun errs => .ok (errs, required))
        else .ok (st.1, required)
    | none =>
        if v.options.additionalProperties then
          match addl with
          | .abool false =>
              .ok (st.1 ++ [(pfx ++ "/" ++ key, .propertyNotAllowed)], required)
          | .aschema as =>
              (recur (pfx ++ "/" ++ key) (depth + 1) as val st.1).bind
                (fun errs => .ok (errs, required))
          | _ => .ok (st.1, required)
        else .ok (st.1, required)
  else .ok (st.1, required)

/-- The `keys.forEach` of `validate.object`: `objKeyStep` applied to every
key of the value in order. -/
def objKeysFold (recur : Recur) (v : Ctx) (pfx : String) (depth : ℕ)
    (properties : List (String × JSchema)) (addl : AddlProps) :
    List (String × JVal) → List ErrRec × List String →
    Except JsErr (List ErrRec × List String)
  | [], st => .ok st
  | (key, val) :: rest, st =>
      (objKeyStep recur v pfx depth properties addl key val st).bind
        (fun st2 => objKeysFold recur v pfx depth properties addl rest st2)

/-- The body of the `forEach` over one effective schema that `discriminate`
resolved: per-key validation, the required-presence report, property-count
bounds and enum membership. -/
def objEffStep (recur : Recur) (v : Ctx) (pfx : String) (depth : ℕ)
    (value : JVal) (fields : List (String × JVal)) (es : JSchema)
    (errs : List ErrRec) : VRes :=
  let required := if v.options.required ∧ es.base.requiredProps.isSome
    then es.base.requiredProps.getD [] else []
  (objKeysFold recur v pfx depth es.properties es.addl fields (errs, required)).bind
    (fun st =>
      let errs := st.1
      let required := st.2
      let errs := if v.options.required ∧ ¬required.isEmpty then
          errs ++ [(pfx, .requiredMissing required)]
        else errs
      let errs := maxMin pfx "object property count"
        v.options.maxProperties v.options.minProperties false false false
        es.base.maxProperties.isSome es.base.minProperties.isSome
        (fun a b : ℕ => a > b) (fun a b : ℕ => a ≥ b)
        (fun a b : ℕ => a < b) (fun a b : ℕ => a ≤ b)
        fields.length (es.base.maxProperties.getD 0) (es.base.minProperties.getD 0)
        (.num fields.length) errs
      .ok (enumCheck v pfx es value errs))

/-- The `forEach` over the effective schemas: `objEffStep` for each in turn. -/
def objEffFold (recur : Recur) (v : Ctx) (pfx : String) (depth : ℕ)
    (value : JVal) (fields : List (String × JVal)) :
    List JSchema → List ErrRec → VRes
  | [], errs => .ok errs
  | es :: rest, errs =>
      (objEffStep recur v pfx depth value fields es errs).bind
        (fun e2 => objEffFold recur v pfx depth value fields rest e2)

/-- Translation of `validate.object`: the non-null keyed-collection test,
then `discriminate` resolves the effective schema set (using the fuel `fd`
in place of the JS identity map, see `discriminate`) and each effective
schema is applied by `objEffFold`. -/
def validateObject (recur : Recur) (fd : ℕ) (v : Ctx) (pfx : String)
    (depth : ℕ) (s : JSchema) (value : JVal) (errs : List ErrRec) : VRes :=
  if ¬v.options.object then .ok errs
  else match fieldsOf value with
  | none => .ok (errs ++ [(pfx, .expectedObject value)])
  | some fields =>
      let st := discriminate v fd pfx s value ([], errs)
      objEffFold recur v pfx depth value fields st.1 st.2

/-- The result record of the `anyOf` helper: the failing branches' error
lists, all branches' reports and the count of error-free branches.  Branch
reports are indexed from 1 (`Schema #i`); a branch with an empty list in
`messages` reported `Valid`. -/
structure AnyOfRes : Type where
  errors : List (ℕ × List ErrRec)
  messages : List (ℕ × List ErrRec)
  valid : ℕ

/-- The branch iteration of the `anyOf` helper: each branch is validated
with a fresh error collection (the `v.errors = []` swap of the original),
never touching the caller's accumulated records. -/
def anyOfLoop (recur : Recur) (pfx : String) (depth : ℕ) (value : JVal) :
    List JSchema → ℕ → AnyOfRes → Except JsErr AnyOfRes
  | [], _, res => .ok res
  | s :: rest, i, res =>
      (recur (pfx ++ "  ") depth s value []).bind (fun branch =>
        anyOfLoop recur pfx depth value rest (i + 1)
          (if branch.isEmpty then
            { errors := res.errors, messages := res.messages ++ [(i + 1, [])],
              valid := res.valid + 1 }
           else
            { errors := res.errors ++ [(i + 1, branch)],
              messages := res.messages ++ [(i + 1, branch)],
              valid := res.valid }))

/-- Translation of the `anyOf` helper (shared by the anyOf and oneOf
dispatch): restores the caller's error collection and returns the branch
report. -/
def anyOfFn (recur : Recur) (pfx : String) (depth : ℕ)
    (schemas : List JSchema) (value : JVal) : Except JsErr AnyOfRes :=
  anyOfLoop recur pfx depth value schemas 0 ⟨[], [], 0⟩

/-- Translation of `not`: the value must fail the inner schema; a clean
inner validation reports "Should not pass schema." -/
def notFn (recur : Recur) (pfx : String) (depth : ℕ) (s : JSchema)
    (value : JVal) (errs : List ErrRec) : VRes := do
  let inner ← recur pfx depth s value []
  if inner.isEmpty then return errs ++ [(pfx, .shouldNotPass)]
  else return errs

/-- The `allOf.forEach` of the `validate` dispatch: every member is
validated into the shared error collection. -/
def allOfFold (recur : Recur) (pfx : String) (depth : ℕ) (value : JVal) :
    List JSchema → List ErrRec → VRes
  | [], errs => .ok errs
  | m :: rest, errs => do
      let errs ← recur pfx depth m value errs
      allOfFold recur pfx depth value rest errs

/-- Translation of the top-level `validate` dispatch of `bin-2/validate.js`.
The fuel argument makes the recursion structural; exhausting it models the
stack exhaustion JS would reach on the same unbounded recursion.  Note the
oneOf arm: the source calls `v.error.push(prefix, ...)`, but `v.error` is
the error-appending function, not the array, so a violated oneOf count
raises `TypeError: v.error.push is not a function` instead of recording the
intended error. -/
def validate (v : Ctx) : ℕ → Recur
  | 0 => fun _ _ _ _ _ => .error .stackOverflow
  | fuel + 1 => fun pfx depth s value errs =>
      let recur : Recur := validate v fuel
      if v.options.anyOf ∧ s.anyOf.isSome then do
        let result ← anyOfFn recur (nestedIndent pfx) depth (s.anyOf.getD []) value
        if result.valid = 0 then
          pure (errs ++ [(pfx, .noneOfAnyOf result.errors)])
        else pure errs
      else if v.options.oneOf ∧ s.oneOf.isSome then do
        let result ← anyOfFn recur (nestedIndent pfx) depth (s.oneOf.getD []) value
        if result.valid ≠ 1 then
          .error (.typeError "v.error.push is not a function")
        else pure errs
      else if v.options.allOf ∧ s.allOf.isSome then
        allOfFold recur pfx depth value (s.allOf.getD []) errs
      else if v.options.notO ∧ s.notSchema.isSome then
        notFn recur pfx depth (s.notSchema.getD (JSchema.simple {})) value errs
      else
        match schemaType s with
        | some "array" => validateArray recur v pfx depth s value errs
        | some "boolean" => validateBoolean v pfx s value errs
        | some "integer" => validateInteger v pfx s value errs
        | some "number" => validateNumber v pfx s value errs
        | some "object" => validateObject recur fuel v pfx depth s value errs
        | some "string" =>
            match s.base.format with
            | some "binary" => validateBinary v pfx s value errs
            | some "byte" => validateByte v pfx s value errs
            | some "date" => validateDate v pfx s value errs
            | some "date-time" => validateDateTime v pfx s value errs
            | some "" => validateString v pfx s value errs
            | none => validateString v pfx s value errs
            | some _ => pure errs
        | _ => pure errs

/-- Modelled from the spec: `copy` of `bin/copy.js` (absent from the
sources) makes a deep copy so that values are "copied (deep copy, not
shared)".  In the pure embedding aliasing is unobservable, so the deep copy
is the identity. -/
def copyVal : JVal → JVal := id

/-- JS `typeof x === 'object'` (true for objects, arrays and `null`). -/
def typeofObject : JVal → Bool
  | .obj _ => true
  | .arr _ => true
  | .null => true
  | _ => false

/-- Truthiness of the `additionalProperties` keyword (`true` or a schema). -/
def addlTruthy : AddlProps → Bool
  | .abool b => b
  | .aschema _ => true
  | .absent => false

/-- Assignment `result[property] = x`: overwrite in place or append. -/
def setField : List (String × JVal) → String → JVal → List (String × JVal)
  | [], key, nv => [(key, nv)]
  | (k, x) :: rest, key, nv =>
      if k = key then (key, nv) :: rest else (k, x) :: setField rest key nv

/-- `Object.assign(target, source)` on field lists: existing keys are
overwritten in place, new keys appended in source order. -/
def mergeFields (target source : List (String × JVal)) :
    List (String × JVal) :=
  (target.map (fun kv =>
    match jsFieldGet source kv.1 with
    | some nv => (kv.1, nv)
    | none => kv))
  ++ source.filter (fun kv => (jsFieldGet target kv.1).isNone)

/-- `Object.assign.apply(Object, applications)`: merge every later object
into the first; non-object sources contribute no fields (the JS exceptions —
index characters of strings — are never produced here). -/
def objAssign : List JVal → JVal
  | [] => .obj []
  | first :: rest =>
      let f0 := match first with
        | .obj f => f
        | _ => []
      .obj (rest.foldl (fun acc x =>
        match x with
        | .obj f => mergeFields acc f
        | _ => acc) f0)

/-- Rendering of a JS value interpolated into a template string. -/
def jsValToStr : JVal → String
  | .str s => s
  | .num q => toString q
  | .bool b => toString b
  | .null => "null"
  | .undefJS => "undefined"
  | .arr _ => ""
  | .obj _ => "[object Object]"

/-- The two brace characters of the handlebar placeholder syntax. -/
def lbrace : Char := Char.ofNat 123

def rbrace : Char := Char.ofNat 125

/-- Scan up to the closing double brace of a handlebar placeholder,
returning the enclosed name and the remainder. -/
def splitAtCloser : List Char → Option (List Char × List Char)
  | [] => none
  | c :: cs =>
      if c = rbrace ∧ cs.head? = some rbrace then some ([], cs.tail)
      else match splitAtCloser cs with
           | some (name, rest) => some (c :: name, rest)
           | none => none

/-- Replacement pass of the handlebar injector over a character list; the
fuel is bounded by the string length plus one. -/
def injectLoop (params : List (String × JVal)) : ℕ → List Char → List Char
  | 0, rest => rest
  | _ + 1, [] => []
  | f + 1, c :: cs =>
      if c = lbrace ∧ cs.head? = some lbrace then
        match splitAtCloser cs.tail with
        | some (name, rest) =>
            match jsFieldGet params (String.mk name) with
            | some pv => (jsValToStr pv).data ++ injectLoop params f rest
            | none => c :: injectLoop params f cs
        | none => c :: injectLoop params f cs
      else c :: injectLoop params f cs

/-- Modelled from the spec: the `handlebar` injector of
`bin/inject-parameters.js` (absent from the sources) — "a pluggable injector
function that receives the raw placeholder text and `params`; if resolution
changes the text, the resolved value is used".  Double-brace placeholders
whose name is bound in `params` are replaced; everything else is kept. -/
def handlebar (params : List (String × JVal)) (template : String) : String :=
  String.mk (injectLoop params (template.length + 1) template.data)

/-- Modelled from the spec: the coercion table of `bin/convert-to.js`
(absent from the sources) — "raw scalars are coerced toward the target
type/format (e.g. boolean-like strings → boolean, numeric-like strings →
number, ...)".  Unconvertible input is passed through unchanged
(coercion is best-effort). -/
def parseDigits : List Char → Option ℕ
  | [] => none
  | cs => cs.foldl (fun acc c =>
      match acc with
      | some n => if c.isDigit then some (n * 10 + (c.toNat - 48)) else none
      | none => none) (some 0)

def parseNumStr (s : String) : Option ℚ :=
  match s.data with
  | '-' :: rest => (parseDigits rest).map (fun n => -(n : ℚ))
  | cs => (parseDigits cs).map (fun n => (n : ℚ))

def convertToNumber : JVal → JVal
  | .num q => .num q
  | .str s => match parseNumStr s with
              | some q => .num q
              | none => .str s
  | .bool b => .num (if b then 1 else 0)
  | x => x

def convertToInteger : JVal → JVal
  | .num q => .num (q.floor)
  | .str s => match parseNumStr s with
              | some q => .num q.floor
              | none => .str s
  | .bool b => .num (if b then 1 else 0)
  | x => x

def convertToBoolean : JVal → JVal
  | .bool b => .bool b
  | .str "true" => .bool true
  | .str "false" => .bool false
  | .num q => .bool (q ≠ 0)
  | x => x

def convertToString : JVal → JVal
  | x => .str (jsValToStr x)

def convertToBinary : JVal → JVal := fun x => x

def convertToByte : JVal → JVal := fun x => x

def convertToDate : JVal → JVal := fun x => x

def convertToDateTime : JVal → JVal := fun x => x

/-- The `populate` option set threaded through the Materializer; `injector`
is the `options.injector` closure the module wrapper builds from
`options.replacement` and `params`. -/
structure TOptions : Type where
  autoFormat : Bool := false
  defaultsUseParams : Bool := true
  ignoreMissingRequired : Bool := true
  useDefaults : Bool := true
  useTemplates : Bool := true
  useVariables : Bool := true
  injector : String → String := id

/-- The `{ applied, value }` record `applyTemplate` returns. -/
structure TResult : Type where
  applied : Bool
  value : JVal

/-- A schema literal with no attributes (also what property access on the
boolean `true` behaves like when `additionalProperties: true` is passed
back into `applyTemplate`). -/
def emptySchema : JSchema := JSchema.simple {}

/-- Remove the `discriminator` attribute (`delete schemaCopy.discriminator`
on the shallow copy). -/
def JSchema.clearDiscriminator : JSchema → JSchema
  | .node b p a i al an o n =>
      .node { b with discriminator := none } p a i al an o n

/-- Translation of `applyTemplate` of `bin/apply-template.js`.  `value?`
is `none` when the JS call passed fewer than five arguments
(`valueNotProvided`); the fuel makes the recursion structural, exhaustion
standing for the stack overflow JS reaches on cyclic discriminator chains.
Notes kept from the source: the discriminator rewrite dereferences
`value.hasOwnProperty` (throws when no value was provided) and
`definitions[...].allOf` (throws when the named subtype is undefined); the
`.filter(s => s !== schema)` compares object identity, which the aliasing-
free tree embedding renders as keeping every member; the allOf merge seeds
`applications = [{}]` and flags `applied` by `applications.length > 2`. -/
def applyTemplate (defs : List (String × JSchema))
    (params : List (String × JVal)) (options : TOptions) :
    ℕ → JSchema → Option JVal → Except JsErr TResult
  | 0, _, _ => .error .stackOverflow
  | fuel + 1, s0, value? => do
      let valueNotProvided := value?.isNone
      let jsValue := value?.getD .undefJS
      let s ←
        if s0.allOf.isNone ∧ truthyOptStr s0.base.discriminator then do
          let d := s0.base.discriminator.getD ""
          let hasIt ← jsHasOwn jsValue d
          if hasIt then
            match lookupDefn defs (jsKeyOf (jsGet jsValue d)) with
            | none => .error (.typeError "Cannot read property allOf of undefined")
            | some second =>
                let allOfL := match second.allOf with
                  | some l => l
                  | none => [second]
                let schemaCopy := s0.clearDiscriminator
                pure (JSchema.node { type := some "object" } [] .absent none
                  (some (allOfL ++ [schemaCopy])) none none none)
          else pure s0
        else pure s0
      let type := schemaType s
      if s.allOf.isSome then
        let st ← (s.allOf.getD []).foldlM (fun (st : List JVal) m => do
            let data ← applyTemplate defs params options fuel m
                (some (if valueNotProvided then .obj [] else jsValue))
            pure (if data.applied then st ++ [data.value] else st))
          [JVal.obj []]
        return ⟨st.length > 2, objAssign st⟩
      if valueNotProvided ∧ options.useVariables ∧ s.base.xVariable.isSome then
        match jsFieldGet params (s.base.xVariable.getD "") with
        | some pv =>
            if ¬(pv matches .undefJS) then
              let val := copyVal pv
              let val := if options.autoFormat then
                  match type with
                  | some "boolean" => convertToBoolean val
                  | some "integer" => convertToInteger val
                  | some "number" => convertToNumber val
                  | some "string" =>
                      match s.base.format with
                      | some "binary" => convertToBinary val
                      | some "byte" => convertToByte val
                      | some "date" => convertToDate val
                      | some "date-time" => convertToDateTime val
                      | _ => convertToString val
                  | _ => val
                else val
              return ⟨true, val⟩
        | none => pure ()
      if valueNotProvided ∧ options.useTemplates ∧ s.base.xTemplate.isSome then
        let t := s.base.xTemplate.getD ""
        let tval := options.injector t
        if tval ≠ t then
          return ⟨true, .str tval⟩
      if valueNotProvided ∧ options.useDefaults ∧ s.base.dflt.isSome then
        let dv := s.base.dflt.getD .undefJS
        if options.defaultsUseParams then
          if jsTruthy jsValue ∧ typeofObject dv then
            return (← applyTemplate defs params options fuel s (some dv))
          else
            match dv with
            | .str ds => return ⟨true, .str (options.injector ds)⟩
            | _ => return ⟨true, copyVal dv⟩
        else
          return ⟨true, copyVal dv⟩
      if type = some "array" then
        match jsValue, s.items with
        | .arr xs, some its =>
            let st ← xs.foldlM (fun (st : List JVal × Bool) x => do
                let data ← applyTemplate defs params options fuel its (some x)
                pure (st.1 ++ [data.value], st.2 || data.applied)) ([], false)
            return ⟨st.2, if st.2 then .arr st.1 else jsValue⟩
        | _, _ => return ⟨false, jsValue⟩
      if type = some "object" then
        if ¬valueNotProvided ∧ ¬(jsTruthy jsValue ∧ typeofObject jsValue) then
          return ⟨false, jsValue⟩
        let result0 : List (String × JVal) :=
          if valueNotProvided then [] else (fieldsOf jsValue).getD []
        let st ← s.properties.foldlM
          (fun (st : List (String × JVal) × Bool) pkv => do
            let sub := pkv.2
            if (options.useTemplates ∧ sub.base.xTemplate.isSome) ∨
               (options.useVariables ∧ sub.base.xVariable.isSome) ∨
               (options.useDefaults ∧ sub.base.dflt.isSome) ∨
               schemaType sub = some "object" then
              let data ← applyTemplate defs params options fuel sub
                  (jsFieldGet st.1 pkv.1)
              if data.applied then
                pure (setField st.1 pkv.1 data.value, true)
              else pure st
            else pure st) (result0, false)
        let st ←
          if addlTruthy s.addl then
            let asch := match s.addl with
              | .aschema a => a
              | _ => emptySchema
            (st.1.map (·.1)).foldlM
              (fun (st2 : List (String × JVal) × Bool) key => do
                if (lookupProp s.properties key).isSome then pure st2
                else
                  let data ← applyTemplate defs params options fuel asch
                      (some ((jsFieldGet st2.1 key).getD .undefJS))
                  if data.applied then pure (setField st2.1 key data.value, true)
                  else pure st2) st
          else pure st
        let setDefault :=
          if ¬options.ignoreMissingRequired then
            if (s.base.requiredProps.getD []).all
                (fun r => (jsFieldGet st.1 r).isSome) then st.2 else false
          else st.2
        return ⟨setDefault, if setDefault then .obj st.1 else jsValue⟩
      return ⟨false, jsValue⟩

/-- A node of the arena representation of a schema graph: flat map from
identity (an index below `n`) to the attributes `discriminate` inspects.
The arena admits the self-referential `allOf` chains the tree type cannot
express, so the JS identity-keyed visited `Map` is modelled exactly. -/
structure ANode (n : ℕ) : Type where
  allOf : Option (List (Fin n)) := none
  discriminator : Option String := none

/-- A schema graph: `n` nodes and the shared definitions map resolving a
discriminator value to a node identity. -/
structure Arena : Type where
  n : ℕ
  node : Fin n → ANode n
  defs : String → Option (Fin n)

/-- Translation of `discriminate` over the arena representation: the
visited set is keyed by node identity, a node already visited in the
current call short-circuits (returning the state accumulated so far instead
of recursing), enabled `allOf` members are flattened through the shared
state, and the discriminator strategy reads the discriminator property out
of the instance and resolves it in the definitions map, reporting an
undefined subtype as an error record.  `none` is the out-of-fuel marker;
the termination theorem shows fuel `n + 1` always suffices. -/
def discriminateA (A : Arena) (oA oD : Bool) (value : JVal) (pfx : String) :
    ℕ → Fin A.n → Finset (Fin A.n) × List (Fin A.n) × List ErrRec →
    Option (Finset (Fin A.n) × List (Fin A.n) × List ErrRec)
  | 0, _, _ => none
  | fuel + 1, s, (visited, acc, errs) =>
      if s ∈ visited then some (visited, acc, errs)
      else
        let visited := insert s visited
        if oA ∧ (A.node s).allOf.isSome then
          ((A.node s).allOf.getD []).foldl
            (fun ost c => ost.bind (fun st =>
              discriminateA A oA oD value pfx fuel c st))
            (some (visited, acc, errs))
        else
          let acc := acc ++ [s]
          if oD ∧ truthyOptStr (A.node s).discriminator then
            let key := jsKeyOf (jsGet value ((A.node s).discriminator.getD ""))
            match A.defs key with
            | some t => discriminateA A oA oD value pfx fuel t (visited, acc, errs)
            | none => some (visited, acc, errs ++ [(pfx, .undefinedDiscriminator key)])
          else some (visited, acc, errs)

/-- The mutations the Enforcer intercepts, sufficient for property writes
and deletes, index assignment and the canonical array methods. -/
inductive Mutation : Type where
  | setProp (key : String) (val : JVal)
  | delProp (key : String)
  | setIndex (idx : ℕ) (val : JVal)
  | push (val : JVal)
  | pop

/-- The raw effect of a mutation on the wrapped value (index assignment
past the current length extends with holes, as in JS). -/
def applyMutation : JVal → Mutation → JVal
  | .obj fields, .setProp k x => .obj (setField fields k x)
  | .obj fields, .delProp k => .obj (fields.filter (fun kv => kv.1 ≠ k))
  | .arr xs, .setIndex i x =>
      .arr (if i < xs.length then xs.set i x
            else xs ++ List.replicate (i - xs.length) .undefJS ++ [x])
  | .arr xs, .push x => .arr (xs ++ [x])
  | .arr xs, .pop => .arr xs.dropLast
  | val, _ => val

/-- Modelled from the spec: the Enforcer's mutation contract
(`bin/enforcer.js` is absent from the sources; only its tests survive).
Per §4.3 the candidate value of a mutation "is validated against that
sub-schema ... *before* the write is committed; on failure the write is
rejected and the object is unchanged", per §7 the Enforcer "raises
immediately and synchronously on the first rule violation for a mutation,
aborting that mutation (no partial effect)".  The returned error-record
list is empty exactly when the mutation committed; a rejection returns the
pre-mutation value together with the violation records it would raise. -/
def enforceMutate (v : Ctx) (fuel : ℕ) (s : JSchema) (cur : JVal)
    (m : Mutation) : Except JsErr (JVal × List ErrRec) := do
  let cand := applyMutation cur m
  let errs ← validate v fuel "" 0 s cand []
  if errs.isEmpty then return (cand, [])
  else return (cur, errs)

/-- The enforcement rule set of §6: every constraint on except `minItems`,
`minProperties` and `required`, which default off while a value is being
built up. -/
def enforceCtx : Ctx :=
  { options := { minItems := false, minProperties := false, required := false } }

/-- A context with every validation rule enabled (the `validate` defaults of
`bin-2/v2/swagger.js` / the v3 table, all true) and the default depth. -/
def vAll : Ctx := { options := {} }

/-- Fixture: `{type:'number'}`. -/
def numSchema : JSchema := .simple { type := some "number" }

/-- Fixture: `{type:'string'}`. -/
def strSchema : JSchema := .simple { type := some "string" }

/-- Fixture: `{oneOf:[{type:'number'},{type:'string'}]}`. -/
def oneOfNumStr : JSchema :=
  .node {} [] .absent none none none (some [numSchema, strSchema]) none

/-- Fixture: `{anyOf:[{type:'number'},{type:'string'}]}`. -/
def anyOfNumStr : JSchema :=
  .node {} [] .absent none none (some [numSchema, strSchema]) none none

/-- Fixture: `{anyOf:[{oneOf:[{type:'number'},{type:'string'}]}]}` — an anyOf
whose branch validation hits the oneOf defect. -/
def anyOfWithOneOf : JSchema :=
  .node {} [] .absent none none (some [oneOfNumStr]) none none

/-- Materializer options with auto-format enabled and the handlebar injector
closed over empty params. -/
def autoFormatOpts : TOptions := { autoFormat := true, injector := handlebar [] }

/-- Fixture: an object schema carrying `discriminator: 'kind'`. -/
def discKindSchema : JSchema :=
  .simple { type := some "object", discriminator := some "kind" }

/-- Fixture: `{allOf:[{type:'object'}]}`. -/
def allOfObjSchema : JSchema :=
  .node {} [] .absent none (some [.simple { type := some "object" }]) none none none

/-- Fixture: `{type:'integer', default:'5'}`. -/
def intDefaultSchema : JSchema :=
  .simple { type := some "integer", dflt := some (.str "5") }

/-- Fixture: `{type:'array', maxItems:0}` (the "cannot push at max items"
test schema). -/
def arrMax0Schema : JSchema :=
  .simple { type := some "array", maxItems := some 0 }

/-- Fixture: a one-node arena whose node references itself through `allOf` —
the cyclic graph the tree type cannot express. -/
def loopArena : Arena := ⟨1, fun _ => { allOf := some [0] }, fun _ => none⟩

/-- Recognizer for multipleOf error records. -/
def isMultErr : ErrRec → Bool := fun e => e.2 matches .multipleOfErr _ _

/-- The error list of a validator run that completed normally. -/
def errsOf : VRes → List ErrRec
  | .ok e => e
  | .error _ => []

theorem setItems_base (s : JSchema) (i : Option JSchema) :
    (s.setItems i).base = s.base := by
  cases s; rfl

theorem setItems_props (s : JSchema) (i : Option JSchema) :
    (s.setItems i).properties = s.properties := by
  cases s; rfl

theorem setItems_items (s : JSchema) (i : Option JSchema) :
    (s.setItems i).items = i := by
  cases s; rfl

theorem setProps_base (s : JSchema) (p : List (String × JSchema)) :
    (s.setProps p).base = s.base := by
  cases s; rfl

theorem setProps_props (s : JSchema) (p : List (String × JSchema)) :
    (s.setProps p).properties = p := by
  cases s; rfl

theorem setProps_allOf (s : JSchema) (p : List (String × JSchema)) :
    (s.setProps p).allOf = s.allOf := by
  cases s; rfl

theorem setAddl_base (s : JSchema) (a : AddlProps) :
    (s.setAddl a).base = s.base := by
  cases s; rfl

theorem setAddl_addl (s : JSchema) (a : AddlProps) :
    (s.setAddl a).addl = a := by
  cases s; rfl

theorem setAddl_allOf (s : JSchema) (a : AddlProps) :
    (s.setAddl a).allOf = s.allOf := by
  cases s; rfl

/-- C1: for every enforced value and attempted mutation, a mutation whose
candidate value violates an enabled rule is rejected with the violation
records and the wrapped value afterwards equals (hence is deep-equal to) its
pre-mutation state; an accepted mutation leaves a value on which the
Validator reports no error under the enabled rules, so between mutations the
enforced value satisfies every enabled rule of its governing schema. -/
theorem c1_enforce_atomic_invariant (v : Ctx) (fuel : ℕ) (s : JSchema)
    (cur : JVal) (m : Mutation) (out : JVal × List ErrRec)
    (h : enforceMutate v fuel s cur m = .ok out) :
    (out.2 ≠ [] → out.1 = cur)
    ∧ (out.2 = [] → validate v fuel "" 0 s out.1 [] = .ok [])
    ∧ (validate v fuel "" 0 s cur [] = .ok [] →
        validate v fuel "" 0 s out.1 [] = .ok []) := by
  simp only [enforceMutate, Bind.bind, Except.bind] at h
  cases hv : validate v fuel "" 0 s (applyMutation cur m) [] with
  | error e => rw [hv] at h; simp at h
  | ok errs =>
      rw [hv] at h
      by_cases he : errs.isEmpty
      · simp only [he, if_true, pure, Except.pure, Except.ok.injEq] at h
        subst h
        have he2 : errs = [] := by simpa [List.isEmpty_iff] using he
        subst he2
        refine ⟨fun hcon => absurd rfl hcon, fun _ => hv, fun _ => hv⟩
      · have he3 : errs.isEmpty = false := by simpa using he
        simp only [he3, Bool.false_eq_true, if_false, pure, Except.pure,
          Except.ok.injEq] at h
        subst h
        refine ⟨fun _ => rfl, fun hcon => ?_, fun hp => hp⟩
        exact absurd (by simp [show errs = [] from hcon]) he

/-- C1 witness: schema `{type:'array', maxItems:0}` with enforced value `[]`
and a `push(1)` mutation — the push is rejected with a length-bound record
and the value afterwards is still `[]`. -/
theorem c1_witness :
    enforceMutate enforceCtx 5 arrMax0Schema (.arr []) (.push (.num 1))
      = .ok (.arr [], [("", .arrayMaxItems 0 1)])
    ∧ (JVal.arr [], [(("" : String), ErrMsg.arrayMaxItems 0 1)]).1 = JVal.arr [] :=
  ⟨rfl, (c1_enforce_atomic_invariant enforceCtx 5 arrMax0Schema (.arr [])
      (.push (.num 1)) (.arr [], [("", .arrayMaxItems 0 1)]) rfl).1 (by simp)⟩

/-- C2: the claim says a oneOf count violation adds a single error record
reporting the count and every branch's error text.  The code instead
evaluates `v.error.push(prefix, ...)` — `v.error` is the error-appending
function, so the call raises `TypeError: v.error.push is not a function`.
At `{oneOf:[{type:'number'},{type:'string'}]}`: value `5` matches exactly
one branch and validation adds no error, while value `true` (zero error-free
branches) raises the TypeError instead of adding the record. -/
theorem c2_oneOf_push_raises :
    validate vAll 5 "" 0 oneOfNumStr (.num 5) [] = .ok []
    ∧ validate vAll 5 "" 0 oneOfNumStr (.bool true) []
        = .error (.typeError "v.error.push is not a function") :=
  ⟨rfl, rfl⟩

/-- C3: the claim says `validate` never throws.  Validating `null` (or
`undefined`) against a string-typed schema evaluates `value.length` before
the `typeof` test and raises a `TypeError` instead of accumulating an error
record. -/
theorem c3_string_null_raises :
    validate vAll 5 "" 0 strSchema .null []
      = .error (.typeError "Cannot read property length of null")
    ∧ validate vAll 5 "" 0 strSchema .undefJS []
      = .error (.typeError "Cannot read property length of undefined") :=
  ⟨rfl, rfl⟩

/-- C4: the claim says `applyTemplate` never raises, including a schema
with a discriminator and no initial value, or a discriminator value naming
a subtype absent from the definitions map.  The code dereferences
`value.hasOwnProperty` (raising when no value was supplied) and
`definitions[...].allOf` (raising when the subtype is undefined). -/
theorem c4_applyTemplate_raises :
    applyTemplate [] [] autoFormatOpts 5 discKindSchema
        (some (.obj [("kind", .str "Dog")]))
      = .error (.typeError "Cannot read property allOf of undefined")
    ∧ applyTemplate [] [] autoFormatOpts 5 discKindSchema none
      = .error (.typeError "Cannot read property hasOwnProperty of undefined") :=
  ⟨rfl, rfl⟩

/-- C6: the claim says materializing a fully conformant value returns it
unchanged with `applied == false`, including allOf compositions.  For
`{allOf:[{type:'object'}]}` against the conformant value `{a:1}` the allOf
merge seeds `applications = [{}]`, drops the member result (nothing
applied) and returns the merge of `[{}]` — the empty object — in place of
the original value. -/
theorem c6_allOf_discards_value :
    applyTemplate [] [] autoFormatOpts 5 allOfObjSchema
        (some (.obj [("a", .num 1)]))
      = .ok ⟨false, .obj []⟩
    ∧ JVal.obj [] ≠ JVal.obj [("a", .num 1)] :=
  ⟨rfl, by simp⟩

/-- C7 counterexample: materializing `{type:'integer', default:'5'}` with
auto-format enabled and no initial value yields the string `'5'`, not the
integer `5` — the claimed coercion of defaults does not happen. -/
theorem c7_counterexample :
    applyTemplate [] [] autoFormatOpts 5 intDefaultSchema none
      = .ok ⟨true, .str "5"⟩
    ∧ JVal.str "5" ≠ JVal.num 5 :=
  ⟨rfl, by simp⟩

/-- C7 (amended): materializing `{type:'integer', default:'5'}` with
auto-format enabled and no initial value yields the string `'5'` passed
through the injector unchanged; auto-format coercion applies only to
variable bindings, never to declared defaults. -/
theorem c7_default_stays_string :
    applyTemplate [] [] autoFormatOpts 5 intDefaultSchema none
      = .ok ⟨true, .str "5"⟩ :=
  rfl

theorem maxMin_filter_mult {α : Type} (pfx dsc : String)
    (oMax oMin ex exMax exMin hMax hMin : Bool)
    (gtF geF ltF leF : α → α → Bool) (value mx mn : α) (vj : JVal)
    (errs : List ErrRec) :
    (maxMin pfx dsc oMax oMin ex exMax exMin hMax hMin gtF geF ltF leF
        value mx mn vj errs).filter isMultErr = errs.filter isMultErr := by
  unfold maxMin
  split_ifs <;> simp [List.filter_append, isMultErr]

theorem enumCheck_filter_mult (v : Ctx) (pfx : String) (s : JSchema)
    (value : JVal) (errs : List ErrRec) :
    (enumCheck v pfx s value errs).filter isMultErr = errs.filter isMultErr := by
  unfold enumCheck
  split
  · split_ifs <;> simp [List.filter_append, isMultErr]
  · rfl

/-- C10: numeric validation records a multipleOf error only when the
schema's `multipleOf` is a truthy (nonzero) number whose remainder test
fails; with `multipleOf` absent or `0` the check is skipped entirely (so
the modulo expression is never evaluated with a zero divisor). -/
theorem c10_multipleOf_guard (dsc : String) (v : Ctx) (pfx : String)
    (s : JSchema) (value : ℚ) (errs : List ErrRec) :
    ((s.base.multipleOf = none ∨ s.base.multipleOf = some 0) →
      (numerical dsc v pfx s value errs).filter isMultErr
        = errs.filter isMultErr)
    ∧ (∀ e ∈ numerical dsc v pfx s value errs, isMultErr e = true →
        e ∈ errs ∨
          ∃ m, s.base.multipleOf = some m ∧ m ≠ 0 ∧ jsMod value m ≠ 0) := by
  constructor
  · intro hmo
    unfold numerical
    rw [enumCheck_filter_mult]
    have hstep : ∀ l : List ErrRec, multStep pfx value s.base.multipleOf l = l := by
      intro l
      rcases hmo with h | h <;> simp [multStep, h]
    rw [hstep]
    exact maxMin_filter_mult ..
  · intro e he hm
    have hf : e ∈ (numerical dsc v pfx s value errs).filter isMultErr :=
      List.mem_filter.mpr ⟨he, hm⟩
    unfold numerical at hf
    rw [enumCheck_filter_mult] at hf
    cases hmo : s.base.multipleOf with
    | none =>
        rw [hmo] at hf
        simp only [multStep] at hf
        rw [maxMin_filter_mult] at hf
        exact Or.inl (List.mem_of_mem_filter hf)
    | some m =>
        rw [hmo] at hf
        by_cases hc : m ≠ 0 ∧ jsMod value m ≠ 0
        · simp only [multStep, if_pos hc] at hf
          rw [List.filter_append, maxMin_filter_mult] at hf
          rcases List.mem_append.mp hf with hl | hr
          · exact Or.inl (List.mem_of_mem_filter hl)
          · exact Or.inr ⟨m, rfl, hc.1, hc.2⟩
        · simp only [multStep, if_neg hc] at hf
          rw [maxMin_filter_mult] at hf
          exact Or.inl (List.mem_of_mem_filter hf)

/-- C10 witness: a schema without `multipleOf` adds no multipleOf error for
the value `5`. -/
theorem c10_witness :
    (numerical "number" vAll "" (JSchema.simple {}) 5 []).filter isMultErr
      = List.filter isMultErr [] :=
  (c10_multipleOf_guard "number" vAll "" (JSchema.simple {}) 5 []).1 (Or.inl rfl)

theorem enumCheck_congr (v : Ctx) (pfx : String) (s1 s2 : JSchema)
    (value : JVal) (errs : List ErrRec)
    (h : s1.base.enumVals = s2.base.enumVals) :
    enumCheck v pfx s1 value errs = enumCheck v pfx s2 value errs := by
  unfold enumCheck; rw [h]

theorem discriminate_plain (v : Ctx) (fd : ℕ) (pfx : String) (s : JSchema)
    (value : JVal) (acc : List JSchema) (errs : List ErrRec)
    (hA : s.allOf = none) (hD : s.base.discriminator = none) :
    discriminate v (fd + 1) pfx s value (acc, errs) = (acc ++ [s], errs) := by
  simp [discriminate, hA, hD, truthyOptStr]

theorem objKeyStep_noDescent (recur : Recur) (v : Ctx) (pfx : String)
    (depth : ℕ) (properties : List (String × JSchema)) (addl : AddlProps)
    (key : String) (val : JVal) (st : List ErrRec × List String)
    (hlt : ¬ depth < v.options.depth) :
    objKeyStep recur v pfx depth properties addl key val st
      = .ok (st.1, st.2.erase key) := by
  unfold objKeyStep
  rw [if_neg hlt]

theorem objKeysFold_noDescent (recur : Recur) (v : Ctx) (pfx : String)
    (depth : ℕ) (properties : List (String × JSchema)) (addl : AddlProps)
    (hlt : ¬ depth < v.options.depth) :
    ∀ (fields : List (String × JVal)) (st : List ErrRec × List String),
      objKeysFold recur v pfx depth properties addl fields st
        = .ok (st.1, fields.foldl (fun req kv => req.erase kv.1) st.2) := by
  intro fields
  induction fields with
  | nil => intro st; rfl
  | cons kv rest ih =>
      intro st
      obtain ⟨key, val⟩ := kv
      simp only [objKeysFold, objKeyStep_noDescent _ _ _ _ _ _ _ _ _ hlt,
        Except.bind, List.foldl]
      exact ih (st.1, st.2.erase key)

theorem objEffStep_noDescent (recur : Recur) (v : Ctx) (pfx : String)
    (depth : ℕ) (value : JVal) (fields : List (String × JVal)) (es : JSchema)
    (errs : List ErrRec) (hlt : ¬ depth < v.options.depth) :
    objEffStep recur v pfx depth value fields es errs
      = .ok (enumCheck v pfx es value
          (let required0 := if v.options.required ∧ es.base.requiredProps.isSome
             then es.base.requiredProps.getD [] else []
           let required := fields.foldl (fun req kv => req.erase kv.1) required0
           let errs := if v.options.required ∧ ¬required.isEmpty then
               errs ++ [(pfx, .requiredMissing required)]
             else errs
           maxMin pfx "object property count"
             v.options.maxProperties v.options.minProperties false false false
             es.base.maxProperties.isSome es.base.minProperties.isSome
             (fun a b : ℕ => a > b) (fun a b : ℕ => a ≥ b)
             (fun a b : ℕ => a < b) (fun a b : ℕ => a ≤ b)
             fields.length (es.base.maxProperties.getD 0)
             (es.base.minProperties.getD 0) (.num fields.length) errs)) := by
  unfold objEffStep
  simp only [objKeysFold_noDescent _ _ _ _ _ _ hlt, Except.bind]

theorem validateArray_noDescent_congr (ra rb : Recur) (v : Ctx) (pfx : String)
    (depth : ℕ) (s : JSchema) (value : JVal) (errs : List ErrRec)
    (hlt : ¬ depth < v.options.depth) (ia ib : Option JSchema) :
    validateArray ra v pfx depth (s.setItems ia) value errs
      = validateArray rb v pfx depth (s.setItems ib) value errs := by
  unfold validateArray
  cases value <;>
    simp only [setItems_base, setItems_items, Bind.bind, Except.bind, pure,
      Except.pure] <;> try rfl
  case arr xs =>
    have hg : (v.options.items = true ∧ depth < v.options.depth) = False := by
      simp only [eq_iff_iff, iff_false]
      intro hc; exact hlt hc.2
    cases ia <;> cases ib <;>
      simp only [hg, if_false, Bind.bind, Except.bind, pure, Except.pure] <;>
      split_ifs <;>
      first
        | rfl
        | (refine congrArg Except.ok (enumCheck_congr v pfx _ _ _ _ ?_)
           rw [setItems_base, setItems_base])

theorem validateArray_noDescent_ok (ra : Recur) (v : Ctx) (pfx : String)
    (depth : ℕ) (s : JSchema) (value : JVal) (errs : List ErrRec)
    (hlt : ¬ depth < v.options.depth) (i : Option JSchema) :
    ∃ out, validateArray ra v pfx depth (s.setItems i) value errs = .ok out := by
  unfold validateArray
  cases value <;>
    simp only [setItems_base, setItems_items, Bind.bind, Except.bind, pure,
      Except.pure] <;>
    try (split_ifs <;> exact ⟨_, rfl⟩)
  case arr xs =>
    have hg : (v.options.items = true ∧ depth < v.options.depth) = False := by
      simp only [eq_iff_iff, iff_false]
      intro hc; exact hlt hc.2
    cases i <;>
      simp only [hg, if_false, Bind.bind, Except.bind, pure, Except.pure] <;>
      split_ifs <;> exact ⟨_, rfl⟩

theorem validateObject_noDescent_congr (ra rb : Recur) (fd : ℕ) (v : Ctx)
    (pfx : String) (depth : ℕ) (s : JSchema) (value : JVal)
    (errs : List ErrRec) (hlt : ¬ depth < v.options.depth)
    (hA : s.allOf = none) (hD : s.base.discriminator = none)
    (p1 p2 : List (String × JSchema)) (a1 a2 : AddlProps) :
    validateObject ra (fd + 1) v pfx depth ((s.setProps p1).setAddl a1) value errs
      = validateObject rb (fd + 1) v pfx depth ((s.setProps p2).setAddl a2) value errs := by
  have hbase : ∀ (p : List (String × JSchema)) (a : AddlProps),
      ((s.setProps p).setAddl a).base = s.base := by
    intro p a; rw [setAddl_base, setProps_base]
  have hallOf : ∀ (p : List (String × JSchema)) (a : AddlProps),
      ((s.setProps p).setAddl a).allOf = none := by
    intro p a; rw [setAddl_allOf, setProps_allOf, hA]
  have hdisc : ∀ (p : List (String × JSchema)) (a : AddlProps),
      ((s.setProps p).setAddl a).base.discriminator = none := by
    intro p a; rw [hbase, hD]
  unfold validateObject
  by_cases ho : v.options.object
  case neg => simp [ho]
  case pos =>
      simp only [ho, not_true_eq_false, Bool.false_eq_true, if_false]
      cases hf : fieldsOf value with
      | none => rfl
      | some fields =>
          rw [discriminate_plain v fd pfx _ value [] errs (hallOf p1 a1) (hdisc p1 a1),
              discriminate_plain v fd pfx _ value [] errs (hallOf p2 a2) (hdisc p2 a2)]
          simp only [objEffFold,
            objEffStep_noDescent _ _ _ _ _ _ _ _ hlt, Except.bind, hbase]
          exact congrArg (fun l => Except.ok l)
            (enumCheck_congr v pfx _ _ _ _ (by rw [hbase, hbase]))

theorem validateObject_noDescent_ok (ra : Recur) (fd : ℕ) (v : Ctx)
    (pfx : String) (depth : ℕ) (s : JSchema) (value : JVal)
    (errs : List ErrRec) (hlt : ¬ depth < v.options.depth)
    (hA : s.allOf = none) (hD : s.base.discriminator = none)
    (p : List (String × JSchema)) (a : AddlProps) :
    ∃ out, validateObject ra (fd + 1) v pfx depth
        ((s.setProps p).setAddl a) value errs = .ok out := by
  have hbase : ((s.setProps p).setAddl a).base = s.base := by
    rw [setAddl_base, setProps_base]
  have hallOf : ((s.setProps p).setAddl a).allOf = none := by
    rw [setAddl_allOf, setProps_allOf, hA]
  have hdisc : ((s.setProps p).setAddl a).base.discriminator = none := by
    rw [hbase, hD]
  unfold validateObject
  by_cases ho : v.options.object
  case neg => exact ⟨errs, by simp [ho]⟩
  case pos =>
      simp only [ho, not_true_eq_false, Bool.false_eq_true, if_false]
      cases hf : fieldsOf value with
      | none => exact ⟨_, rfl⟩
      | some fields =>
          rw [discriminate_plain v fd pfx _ value [] errs hallOf hdisc]
          simp only [objEffFold,
            objEffStep_noDescent _ _ _ _ _ _ _ _ hlt, Except.bind]
          exact ⟨_, rfl⟩

/-- C9: once the depth budget is exhausted (`depth` at or past
`v.options.depth`), validation stops descending: `validate.array` no longer
recurses into `items` (its result neither calls the continuation nor depends
on the `items` sub-schema) and `validate.object` no longer validates
property values (its result depends on neither the continuation nor the
`properties`/`additionalProperties` sub-schemas), while both still complete
normally, returning their shallow checks instead of failing. -/
theorem c9_depth_stops_descent (r1 r2 : Recur) (fd : ℕ) (v : Ctx)
    (pfx : String) (depth : ℕ) (s : JSchema) (value : JVal)
    (errs : List ErrRec) (h : v.options.depth ≤ depth) :
    (∀ i1 i2 : Option JSchema,
      validateArray r1 v pfx depth (s.setItems i1) value errs
        = validateArray r2 v pfx depth (s.setItems i2) value errs)
    ∧ (∀ i : Option JSchema, ∃ out,
        validateArray r1 v pfx depth (s.setItems i) value errs = .ok out)
    ∧ (s.allOf = none → s.base.discriminator = none →
        (∀ (p1 p2 : List (String × JSchema)) (a1 a2 : AddlProps),
          validateObject r1 (fd + 1) v pfx depth
              ((s.setProps p1).setAddl a1) value errs
            = validateObject r2 (fd + 1) v pfx depth
              ((s.setProps p2).setAddl a2) value errs)
        ∧ (∀ (p : List (String × JSchema)) (a : AddlProps), ∃ out,
            validateObject r1 (fd + 1) v pfx depth
              ((s.setProps p).setAddl a) value errs = .ok out)) := by
  have hlt : ¬ depth < v.options.depth := not_lt.mpr h
  exact ⟨fun i1 i2 => validateArray_noDescent_congr r1 r2 v pfx depth s value errs hlt i1 i2,
    fun i => validateArray_noDescent_ok r1 v pfx depth s value errs hlt i,
    fun hA hD =>
      ⟨fun p1 p2 a1 a2 => validateObject_noDescent_congr r1 r2 fd v pfx depth s
          value errs hlt hA hD p1 p2 a1 a2,
       fun p a => validateObject_noDescent_ok r1 fd v pfx depth s value errs
          hlt hA hD p a⟩⟩

/-- C9 witness: at depth 20 (the configured limit of `vAll`), swapping the
`items` sub-schema and the continuation leaves the array validation of
`{type:'array', maxItems:0}` on `[1]` unchanged. -/
theorem c9_witness :
    validateArray (validate vAll 1) vAll "" 20
        (arrMax0Schema.setItems (some numSchema)) (.arr [.num 1]) []
      = validateArray (validate vAll 3) vAll "" 20
        (arrMax0Schema.setItems none) (.arr [.num 1]) [] :=
  (c9_depth_stops_descent (validate vAll 1) (validate vAll 3) 0 vAll "" 20
    arrMax0Schema (.arr [.num 1]) [] (by decide)).1 (some numSchema) none

theorem anyOfLoop_spec (recur : Recur) (pfx : String) (depth : ℕ)
    (value : JVal) :
    ∀ (bs : List JSchema) (i : ℕ) (res : AnyOfRes),
      (∀ b ∈ bs, ∃ e, recur (pfx ++ "  ") depth b value [] = .ok e) →
      anyOfLoop recur pfx depth value bs i res = .ok
        { errors := res.errors ++ (List.enumFrom (i + 1)
            (bs.map (fun b => errsOf (recur (pfx ++ "  ") depth b value [])))).filter
              (fun p => ¬p.2.isEmpty),
          messages := res.messages ++ List.enumFrom (i + 1)
            (bs.map (fun b => errsOf (recur (pfx ++ "  ") depth b value []))),
          valid := res.valid + (bs.map (fun b =>
            errsOf (recur (pfx ++ "  ") depth b value []))).countP
              (fun r => r.isEmpty) } := by
  intro bs
  induction bs with
  | nil => intro i res hb; simp [anyOfLoop]
  | cons b rest ih =>
      intro i res hb
      obtain ⟨e, he⟩ := hb b (List.mem_cons_self b rest)
      have hrest : ∀ b2 ∈ rest, ∃ e2,
          recur (pfx ++ "  ") depth b2 value [] = .ok e2 :=
        fun b2 hb2 => hb b2 (List.mem_cons_of_mem b hb2)
      simp only [anyOfLoop, he, Except.bind]
      rw [ih (i + 1) _ hrest]
      by_cases hemp : e.isEmpty
      · have he2 : e = [] := List.isEmpty_iff.mp hemp
        subst he2
        simp [List.enumFrom, errsOf, he, List.countP_cons, List.filter,
          List.append_assoc]
        omega
      · have he2 : ¬e.isEmpty := hemp
        simp [List.enumFrom, errsOf, he, he2, List.countP_cons, List.filter,
          List.append_assoc]

/-- C5 (amended): whenever every anyOf branch validation completes without a
thrown JS error, each branch is validated against a fresh error collection
(the empty list passed to each branch run), branch results never leak into
one another or into the caller's collection, validation succeeds (adds
nothing) iff at least one branch result is error-free, and on failure
exactly one record — carrying every failing branch's error list — is
appended after the caller's previously accumulated records, which are
preserved unchanged.  The proviso is forced by the oneOf/string defects: a
branch that throws aborts the whole anyOf (see the counterexample). -/
theorem c5_anyOf_isolated_branches (v : Ctx) (fuel : ℕ) (pfx : String)
    (depth : ℕ) (bs : List JSchema) (s : JSchema) (value : JVal)
    (errs : List ErrRec) (hOpt : v.options.anyOf = true)
    (hS : s.anyOf = some bs)
    (hBr : ∀ b ∈ bs, ∃ e,
      validate v fuel (nestedIndent pfx ++ "  ") depth b value [] = .ok e) :
    validate v (fuel + 1) pfx depth s value errs =
      .ok (if (bs.map (fun b => errsOf
            (validate v fuel (nestedIndent pfx ++ "  ") depth b value []))).any
              (fun r => r.isEmpty)
        then errs
        else errs ++ [(pfx, .noneOfAnyOf ((List.enumFrom 1 (bs.map (fun b =>
          errsOf (validate v fuel (nestedIndent pfx ++ "  ") depth b value [])))).filter
            (fun p => ¬p.2.isEmpty)))]) := by
  simp only [validate, hOpt, hS, Option.isSome_some, and_self, if_true,
    Option.getD_some, Bind.bind, Except.bind, anyOfFn]
  rw [anyOfLoop_spec _ _ _ _ bs 0 ⟨[], [], 0⟩ hBr]
  simp only [Except.bind]
  set results := bs.map (fun b =>
    errsOf (validate v fuel (nestedIndent pfx ++ "  ") depth b value [])) with hres
  by_cases hany : results.any (fun r => r.isEmpty)
  · have hcount : results.countP (fun r => r.isEmpty) ≠ 0 := by
      rcases List.any_eq_true.mp hany with ⟨r, hr, hre⟩
      have hpos : 0 < results.countP (fun r => r.isEmpty) :=
        List.countP_pos.mpr ⟨r, hr, hre⟩
      omega
    simp [hany, hcount]
    rfl
  · have hcount : results.countP (fun r => r.isEmpty) = 0 := by
      rw [List.countP_eq_zero]
      intro a ha
      have hnone := List.any_eq_true.not.mp hany
      by_contra hcon
      exact hnone ⟨a, ha, hcon⟩
    simp [hany, hcount]
    rfl

/-- C5 counterexample: for the anyOf schema whose only branch carries a
violated oneOf, the branch validation throws, the whole anyOf validation
propagates the exception, and therefore no single failure record is
appended and nothing of the claim's contract is delivered. -/
theorem c5_counterexample :
    validate vAll 5 "" 0 anyOfWithOneOf (.bool true) []
      = .error (.typeError "v.error.push is not a function")
    ∧ ∀ out, validate vAll 5 "" 0 anyOfWithOneOf (.bool true) [] ≠ .ok out :=
  ⟨rfl, fun out h => by
    rw [show validate vAll 5 "" 0 anyOfWithOneOf (.bool true) []
        = .error (.typeError "v.error.push is not a function") from rfl] at h
    exact Except.noConfusion h⟩

/-- C5 witness: `{anyOf:[{type:'number'},{type:'string'}]}` against `true`
with one previously accumulated record — both branch runs complete, both
fail, and exactly one combined record is appended after the preserved
record. -/
theorem c5_witness :
    validate vAll 5 "" 0 anyOfNumStr (.bool true) [("p", .shouldNotPass)]
      = .ok [("p", .shouldNotPass),
             ("", .noneOfAnyOf
               [(1, [("    ", .expectedNumber (.bool true))]),
                (2, [("    ", .expectedString (.bool true))])])] :=
  c5_anyOf_isolated_branches vAll 4 "" 0 [numSchema, strSchema] anyOfNumStr
    (.bool true) [("p", .shouldNotPass)] rfl rfl
    (by
      intro b hb
      simp only [List.mem_cons, List.mem_singleton] at hb
      rcases hb with rfl | rfl | h
      · exact ⟨_, rfl⟩
      · exact ⟨_, rfl⟩
      · cases h)
theorem discA_progress (A : Arena) (oA oD : Bool) (value : JVal)
    (pfx : String) :
    ∀ (fuel : ℕ) (s : Fin A.n) (visited : Finset (Fin A.n))
      (acc : List (Fin A.n)) (errs : List ErrRec),
      A.n - visited.card < fuel →
      ∃ out, discriminateA A oA oD value pfx fuel s (visited, acc, errs)
          = some out ∧ visited ⊆ out.1 := by
  intro fuel
  induction fuel with
  | zero => intro s visited acc errs h; omega
  | succ f ih =>
      intro s visited acc errs h
      by_cases hv : s ∈ visited
      · exact ⟨(visited, acc, errs), by simp [discriminateA, hv],
          Finset.Subset.refl _⟩
      · have hcard : visited.card < A.n := by
          have hle : visited.card ≤ Fintype.card (Fin A.n) :=
            Finset.card_le_univ visited
          rw [Fintype.card_fin] at hle
          rcases Nat.lt_or_ge visited.card A.n with hlt | hge
          · exact hlt
          · exfalso
            have heq : visited.card = Fintype.card (Fin A.n) := by
              rw [Fintype.card_fin]; omega
            have huniv : visited = Finset.univ := Finset.eq_univ_of_card _ heq
            exact hv (huniv ▸ Finset.mem_univ s)
        have hgap : A.n - (insert s visited).card < f := by
          rw [Finset.card_insert_of_not_mem hv]
          omega
        have hsub0 : visited ⊆ insert s visited := Finset.subset_insert s visited
        have hfold : ∀ (cs : List (Fin A.n))
            (st : Finset (Fin A.n) × List (Fin A.n) × List ErrRec),
            A.n - st.1.card < f →
            ∃ out, cs.foldl (fun ost c => ost.bind (fun st2 =>
                discriminateA A oA oD value pfx f c st2)) (some st) = some out
              ∧ st.1 ⊆ out.1 := by
          intro cs
          induction cs with
          | nil => intro st hst; exact ⟨st, rfl, Finset.Subset.refl _⟩
          | cons c rest ihc =>
              intro st hst
              obtain ⟨out1, hout1, hsub1⟩ := ih c st.1 st.2.1 st.2.2 hst
              have hst1 : A.n - out1.1.card < f :=
                lt_of_le_of_lt (Nat.sub_le_sub_left (Finset.card_le_card hsub1) _) hst
              obtain ⟨out2, hout2, hsub2⟩ := ihc out1 hst1
              refine ⟨out2, ?_, Finset.Subset.trans hsub1 hsub2⟩
              rw [show (st.1, st.2.1, st.2.2) = st from rfl] at hout1
              simp only [List.foldl, Option.some_bind, hout1, hout2]
        simp only [discriminateA, hv, if_false]
        by_cases hA2 : oA = true ∧ (A.node s).allOf.isSome = true
        · rw [if_pos hA2]
          obtain ⟨out, hout, hsub⟩ := hfold ((A.node s).allOf.getD [])
            (insert s visited, acc, errs) hgap
          exact ⟨out, hout, Finset.Subset.trans hsub0 hsub⟩
        · rw [if_neg hA2]
          by_cases hd : oD = true ∧ truthyOptStr (A.node s).discriminator = true
          · rw [if_pos hd]
            cases hdfn : A.defs (jsKeyOf (jsGet value
                ((A.node s).discriminator.getD ""))) with
            | some t =>
                obtain ⟨out, hout, hsub⟩ := ih t (insert s visited)
                  (acc ++ [s]) errs hgap
                exact ⟨out, hout, Finset.Subset.trans hsub0 hsub⟩
            | none =>
                exact ⟨(insert s visited, acc ++ [s], _), rfl, hsub0⟩
          · rw [if_neg hd]
            exact ⟨(insert s visited, acc ++ [s], errs), rfl, hsub0⟩

/-- C8: discriminator/allOf resolution terminates on every schema graph,
including nodes referencing themselves through `allOf` chains: with fuel
`n + 1` (one more than the number of nodes) the arena `discriminate` always
returns, because a node already visited during the current resolution call
is never expanded again — the revisit short-circuits, returning the
already-accumulated state unchanged instead of recursing. -/
theorem c8_discriminate_terminates (A : Arena) (oA oD : Bool) (value : JVal)
    (pfx : String) (s : Fin A.n) :
    (∃ out, discriminateA A oA oD value pfx (A.n + 1) s (∅, [], []) = some out)
    ∧ (∀ (fuel : ℕ) (visited : Finset (Fin A.n)) (acc : List (Fin A.n))
        (errs : List ErrRec), s ∈ visited →
        discriminateA A oA oD value pfx (fuel + 1) s (visited, acc, errs)
          = some (visited, acc, errs)) := by
  constructor
  · obtain ⟨out, hout, _⟩ := discA_progress A oA oD value pfx (A.n + 1) s ∅ [] []
      (by simp)
    exact ⟨out, hout⟩
  · intro fuel visited acc errs hv
    simp [discriminateA, hv]

/-- C8 witness: the one-node arena whose node's `allOf` references itself —
resolution with fuel `n + 1 = 2` returns, and a call on the already-visited
node returns its state unchanged. -/
theorem c8_witness :
    (∃ out, discriminateA loopArena true true .null "" (loopArena.n + 1)
        ⟨0, Nat.zero_lt_one⟩ (∅, [], []) = some out)
    ∧ discriminateA loopArena true true .null "" 1 ⟨0, Nat.zero_lt_one⟩
        ({⟨0, Nat.zero_lt_one⟩}, [], [])
        = some ({⟨0, Nat.zero_lt_one⟩}, [], []) :=
  ⟨(c8_discriminate_terminates loopArena true true .null "" ⟨0, Nat.zero_lt_one⟩).1,
   (c8_discriminate_terminates loopArena true true .null "" ⟨0, Nat.zero_lt_one⟩).2
     0 {⟨0, Nat.zero_lt_one⟩} [] [] (Finset.mem_singleton_self _)⟩
